import Mathlib

/-!
# Verification of the workflow builder's validation / history / orchestration core

This file embeds the core logic of the workflow-builder repository
(`WorkflowValidation.tsx`, the `WorkflowBuilder` component in
`nodes/BaseNode.tsx`) as executable Lean definitions and proves the
specification claims about them.

Conventions of the embedding:
* JS `Set<string>` objects (`visited`, `recursionStack`) are modelled as
  `List String` with `contains` / cons / `erase`, which matches the code's
  usage pattern exactly (membership test before insertion, deletion of the
  most recently inserted element).
* `undefined`-able fields (`node.type`, `node.data.enabled`, ...) are
  `Option` types; JS `x === false` becomes `x == some false` and
  `x !== false` becomes `x != some false`.
* Array index accesses that can be out of bounds in JS (where reading a
  field of `undefined` throws) are modelled with `Option`: `none` marks the
  crashing execution.
-/

/-- Per-node mutable data (`node.data` in the React Flow node). -/
structure NodeData where
  label : String
  status : String
  enabled : Option Bool
  lastExecuted : Option Nat
  executionTime : Option Nat
  config : List (String × String)
deriving DecidableEq, Repr

/-- A React Flow node as used by the workflow builder. `type` is optional in
React Flow, hence `Option String`. Positions are integer coordinates. -/
structure RFNode where
  id : String
  type : Option String
  position : Int × Int
  data : NodeData
deriving DecidableEq, Repr

/-- A React Flow edge: a directed link between two node ids. -/
structure RFEdge where
  id : String
  source : String
  target : String
deriving DecidableEq, Repr

/-- A validation issue as produced by `WorkflowValidation.tsx`
(field `type` is the severity: "error" | "warning" | "info"). -/
structure ValidationIssue where
  id : String
  type : String
  message : String
  nodeId : Option String
  edgeId : Option String
deriving DecidableEq, Repr

/-- JS `node.data?.label || node.id`: falls back to the id when the label is
the empty string (falsy). -/
def labelOrId (n : RFNode) : String :=
  if n.data.label = "" then n.id else n.data.label

/-- The ids appearing as source or target of some edge
(`connectedNodeIds` in `WorkflowValidation.tsx`). -/
def connectedNodeIds (edges : List RFEdge) : List String :=
  edges.map (fun e => e.source) ++ edges.map (fun e => e.target)

/-- The inner `for (const edge of outgoingEdges)` loop of `hasCycle`,
abstracted over the recursive call `step` (the body of `hasCycle` at the
next recursion depth).  It threads the `visited` / `recursionStack` sets and
propagates the first `true` result; `none` signals fuel exhaustion. -/
def dfsLoop (step : String → List String → List String →
    Option (Bool × List String × List String)) :
    List RFEdge → List String → List String →
    Option (Bool × List String × List String)
  | [], v, s => some (false, v, s)
  | e :: rest, v, s =>
    match step e.target v s with
    | none => none
    | some (true, v', s') => some (true, v', s')
    | some (false, v', s') => dfsLoop step rest v' s'

/-- The recursive `hasCycle(nodeId)` function of `WorkflowValidation.tsx`,
with the shared mutable sets made explicit: it receives and returns the
`visited` and `recursionStack` sets.  `fuel` bounds the recursion depth; the
source recursion terminates because every nested call inserts a fresh id
into `visited`, and `validate` below supplies enough fuel for that bound
(proved in `dfs_sufficient`). -/
def dfs (edges : List RFEdge) : Nat → String → List String → List String →
    Option (Bool × List String × List String)
  | 0, _, _, _ => none
  | fuel + 1, n, v, s =>
    if s.contains n then some (true, v, s)
    else if v.contains n then some (false, v, s)
    else
      match dfsLoop (fun t v' s' => dfs edges fuel t v' s')
          (edges.filter (fun e => e.source == n)) (n :: v) (n :: s) with
      | none => none
      | some (true, v', s') => some (true, v', s')
      | some (false, v', s') => some (false, v', s'.erase n)

/-- The `for (const node of nodes)` scan that calls `hasCycle(node.id)` and
stops at the first node reporting a cycle, threading the shared sets. -/
def cycleScan (edges : List RFEdge) (fuel : Nat) :
    List RFNode → List String → List String → Option String
  | [], _, _ => none
  | n :: rest, v, s =>
    match dfs edges fuel n.id v s with
    | none => none
    | some (true, _, _) => some n.id
    | some (false, v', s') => cycleScan edges fuel rest v' s'

/-- Fuel that suffices for the whole cycle scan: one more than the number of
distinct ids that can ever enter `visited`. -/
def scanFuel (nodes : List RFNode) (edges : List RFEdge) : Nat :=
  ((nodes.map (fun n => n.id) ++ edges.map (fun e => e.target)).dedup).length + 1

/-- The id of the first node for which `hasCycle` returns true, if any
(the node the single cycle error is attached to). -/
def findCycleNode (nodes : List RFNode) (edges : List RFEdge) : Option String :=
  cycleScan edges (scanFuel nodes edges) nodes [] []

def cycleMessage : String :=
  "Circular dependency detected in workflow. This will cause infinite loops."

/-- Rule 1 of `validate`: one error when no node has kind `trigger`. -/
def noTriggerIssues (nodes : List RFNode) : List ValidationIssue :=
  if (nodes.filter (fun n => n.type == some "trigger")).length == 0 then
    [{ id := "no-trigger", type := "error",
       message := "Workflow has no trigger nodes. Add at least one trigger to start execution.",
       nodeId := none, edgeId := none }]
  else []

/-- The isolation test of rule 2: the node is connected to no edge and is
not a trigger (`!connectedNodeIds.has(node.id) && node.type !== 'trigger'`). -/
def isolatedPred (edges : List RFEdge) (n : RFNode) : Bool :=
  !(connectedNodeIds edges).contains n.id && n.type != some "trigger"

/-- The warning pushed for an isolated node. -/
def mkIsolatedIssue (n : RFNode) : ValidationIssue :=
  { id := "isolated-" ++ n.id, type := "warning",
    message := "Node \"" ++ labelOrId n ++ "\" is not connected to the workflow.",
    nodeId := some n.id, edgeId := none }

/-- Rule 2 of `validate`: one warning per non-trigger node connected to no edge. -/
def isolationIssues (nodes : List RFNode) (edges : List RFEdge) : List ValidationIssue :=
  nodes.filterMap (fun n =>
    if isolatedPred edges n then some (mkIsolatedIssue n) else none)

/-- Rule 3 of `validate`: one warning per condition node with no outgoing edge. -/
def conditionIssues (nodes : List RFNode) (edges : List RFEdge) : List ValidationIssue :=
  (nodes.filter (fun n => n.type == some "condition")).filterMap (fun n =>
    if (edges.filter (fun e => e.source == n.id)).length == 0 then
      some { id := "condition-no-output-" ++ n.id, type := "warning",
             message := "Condition node \"" ++ labelOrId n ++ "\" has no outgoing connections.",
             nodeId := some n.id, edgeId := none }
    else none)

/-- Rule 4 of `validate`: at most one error, for the first cycle found. -/
def cycleIssues (nodes : List RFNode) (edges : List RFEdge) : List ValidationIssue :=
  match findCycleNode nodes edges with
  | some nid => [{ id := "cycle-" ++ nid, type := "error", message := cycleMessage,
                   nodeId := some nid, edgeId := none }]
  | none => []

/-- Rule 5 of `validate`: one info per disabled trigger/condition node
(`node.data?.enabled === false && ['trigger','condition'].includes(node.type || '')`). -/
def disabledCriticalIssues (nodes : List RFNode) : List ValidationIssue :=
  (nodes.filter (fun n =>
      n.data.enabled == some false &&
      ((n.type.getD "") == "trigger" || (n.type.getD "") == "condition"))).map (fun n =>
    { id := "disabled-critical-" ++ n.id, type := "info",
      message := "Critical node \"" ++ labelOrId n ++ "\" is disabled.",
      nodeId := some n.id, edgeId := none })

/-- The validation engine: the `issues` computation of
`WorkflowValidation.tsx`, pushing its five rule blocks in source order. -/
def validate (nodes : List RFNode) (edges : List RFEdge) : List ValidationIssue :=
  noTriggerIssues nodes ++ isolationIssues nodes edges ++
  conditionIssues nodes edges ++ cycleIssues nodes edges ++
  disabledCriticalIssues nodes

/-- The `errorCount` summary in `WorkflowValidation.tsx`. -/
def errorCount (nodes : List RFNode) (edges : List RFEdge) : Nat :=
  ((validate nodes edges).filter (fun i => i.type == "error")).length

/-- The workflow settings state of `WorkflowBuilder` (fields relevant to the
orchestrator; presentation-only fields omitted). -/
structure WorkflowSettingsState where
  timeout : Nat
  retryAttempts : Nat
  enableValidation : Bool
  executionMode : String
  errorHandling : String
deriving DecidableEq, Repr

/-- The guard at the top of `executeWorkflow`: with validation enabled the
run is rejected exactly when no enabled trigger node exists
(`node.type === 'trigger' && node.data.enabled !== false`). -/
def runBlocked (settings : WorkflowSettingsState) (nodes : List RFNode) : Bool :=
  settings.enableValidation &&
    (nodes.filter (fun n => n.type == some "trigger" && n.data.enabled != some false)).length == 0

/-! ## History manager (`saveToHistory` / `undo` / `redo` in `WorkflowBuilder`) -/

/-- One history entry: a snapshot of the graph (`{ nodes, edges }`). -/
structure Snapshot where
  nodes : List RFNode
  edges : List RFEdge
deriving DecidableEq, Repr

/-- The history-related part of the `WorkflowBuilder` state: the `history`
array, `historyIndex` (initially `-1`, hence `Int`), and the current graph
(`nodes`/`edges`). -/
structure HistoryState where
  history : List Snapshot
  historyIndex : Int
  current : Snapshot
deriving DecidableEq, Repr

/-- The initial history state: empty stack, index `-1`. -/
def initHistory (g : Snapshot) : HistoryState :=
  { history := [], historyIndex := -1, current := g }

/-- JS `array.slice(-n)`: the last `n` elements (the whole array when it is
shorter than `n`). -/
def takeLast (n : Nat) (l : List α) : List α :=
  l.drop (l.length - n)

/-- The `saveToHistory` callback, called with the post-mutation snapshot `g`:
`prev.slice(0, historyIndex + 1)`, push, `slice(-50)`; then
`historyIndex + 1`.  Note the index is incremented even when the slice
dropped the oldest entry. -/
def pushHistory (g : Snapshot) (st : HistoryState) : HistoryState :=
  { history := takeLast 50 (st.history.take (st.historyIndex + 1).toNat ++ [g]),
    historyIndex := st.historyIndex + 1,
    current := g }

/-- The `undo` callback: when `historyIndex > 0`, load `history[historyIndex - 1]` and
decrement the index; otherwise do nothing.  The `none` result models the JS
crash when `history[historyIndex - 1]` is `undefined` (reading
`previousState.nodes` throws). -/
def undoHistory (st : HistoryState) : Option HistoryState :=
  if st.historyIndex > 0 then
    match st.history.get? (st.historyIndex - 1).toNat with
    | some prev =>
        some { history := st.history, historyIndex := st.historyIndex - 1, current := prev }
    | none => none
  else some st

/-- The `redo` callback: when `historyIndex < history.length - 1`, load
`history[historyIndex + 1]` and increment the index; otherwise do nothing.
`none` models the JS crash on an `undefined` entry (including a negative
index, which JS arrays also answer with `undefined`). -/
def redoHistory (st : HistoryState) : Option HistoryState :=
  if st.historyIndex < (st.history.length : Int) - 1 then
    if st.historyIndex + 1 < 0 then none
    else
      match st.history.get? (st.historyIndex + 1).toNat with
      | some nxt =>
          some { history := st.history, historyIndex := st.historyIndex + 1, current := nxt }
      | none => none
  else some st

/-- State after pushing a sequence of post-mutation snapshots in order. -/
def pushAll (gs : List Snapshot) (st : HistoryState) : HistoryState :=
  gs.foldl (fun acc g => pushHistory g acc) st

/-- Iterated `undo`, applied `k` times (propagating a crash). -/
def undoTimes : Nat → HistoryState → Option HistoryState
  | 0, st => some st
  | k + 1, st => (undoHistory st).bind (undoTimes k)

/-- Iterated `redo`, applied `k` times (propagating a crash). -/
def redoTimes : Nat → HistoryState → Option HistoryState
  | 0, st => some st
  | k + 1, st => (redoHistory st).bind (redoTimes k)

/-- The `canRedo` flag as computed for the toolbar: `historyIndex < history.length - 1`. -/
def canRedo (st : HistoryState) : Bool :=
  st.historyIndex < (st.history.length : Int) - 1

/-! ## Graph store operations (`WorkflowBuilder` callbacks) -/

/-- The graph/execution part of the `WorkflowBuilder` state (history handled
separately above). -/
structure WState where
  nodes : List RFNode
  edges : List RFEdge
  selectedNode : Option String
  selectedNodes : List String
  executionLog : List (String × String)
  executionFlow : List String
  currentExecutingNode : Option String
  totalNodes : Nat
  completedNodes : Nat
deriving DecidableEq, Repr

/-- The `onDeleteNode` callback: drop the node and every edge touching it; deselect it. -/
def onDeleteNode (nodeId : String) (st : WState) : WState :=
  { st with
    nodes := st.nodes.filter (fun n => n.id != nodeId),
    edges := st.edges.filter (fun e => e.source != nodeId && e.target != nodeId),
    selectedNode := if st.selectedNode == some nodeId then none else st.selectedNode,
    selectedNodes := st.selectedNodes.filter (fun i => i != nodeId) }

/-- The `deleteSelectedNodes` callback: drop every selected node and every edge whose
source or target is selected; clear the selection. -/
def deleteSelectedNodes (st : WState) : WState :=
  { st with
    nodes := st.nodes.filter (fun n => !st.selectedNodes.contains n.id),
    edges := st.edges.filter (fun e =>
      !st.selectedNodes.contains e.source && !st.selectedNodes.contains e.target),
    selectedNodes := [],
    selectedNode := none }

/-- A React Flow `Connection` (`source`/`target` are `string | null`). -/
structure Connection where
  source : Option String
  target : Option String
deriving DecidableEq, Repr

/-- The `addEdge` helper from `@xyflow/react` (external library, modelled from its
documented behaviour): ignore a connection with a missing endpoint or one
duplicating an existing edge, otherwise append a new edge between the
connection's endpoints. -/
def addEdge (c : Connection) (eds : List RFEdge) : List RFEdge :=
  match c.source, c.target with
  | some src, some tgt =>
      if eds.any (fun e => e.source == src && e.target == tgt) then eds
      else eds ++ [{ id := "xy-edge__" ++ src ++ "-" ++ tgt, source := src, target := tgt }]
  | _, _ => eds

/-- The `onConnect` callback: `setEdges(eds => addEdge(params, eds))`. -/
def onConnect (c : Connection) (st : WState) : WState :=
  { st with edges := addEdge c st.edges }

/-- Template string `` `${nodeToDuplicate.type}-${Date.now()}` ``: it prints
`undefined` for a missing type. -/
def dupId (n : RFNode) (now : Nat) : String :=
  (match n.type with | some t => t | none => "undefined") ++ "-" ++ toString now

/-- The duplicated node built by `onDuplicateNode`: fresh id from the
current timestamp, position offset by (50, 50), label suffixed, status reset
to idle; everything else copied. -/
def dupNode (n : RFNode) (now : Nat) : RFNode :=
  { n with
    id := dupId n now,
    position := (n.position.1 + 50, n.position.2 + 50),
    data := { n.data with label := n.data.label ++ " (Copy)", status := "idle" } }

/-- The `onDuplicateNode` callback: find the node, append its copy; no-op when absent. -/
def onDuplicateNode (now : Nat) (nodeId : String) (st : WState) : WState :=
  match st.nodes.find? (fun n => n.id == nodeId) with
  | none => st
  | some n => { st with nodes := st.nodes ++ [dupNode n now] }

/-- The `clearExecution` callback: reset every node's status to idle (clearing the
per-node execution info), empty the log and flow, and zero the counters. -/
def clearExecution (st : WState) : WState :=
  { st with
    nodes := st.nodes.map (fun n =>
      { n with data :=
          { n.data with status := "idle", lastExecuted := none, executionTime := none } }),
    executionLog := [],
    executionFlow := [],
    currentExecutingNode := none,
    totalNodes := 0,
    completedNodes := 0 }

/-- Outcome of `handleSimulateNode`: the engine result, the caught-fault
object `{ error: 'Simulation failed', details, inputData }`, or `null` when
the node does not exist. -/
inductive SimOutcome (α β : Type) where
  | ok (result : β)
  | failed (details : String) (inputData : α)
  | nodeNotFound
deriving DecidableEq

/-- The `handleSimulateNode(nodeId, inputData)` handler: look the node up, delegate to
`workflowEngine.executeNode` (abstracted as the `engineExec` oracle, which
may fault), and catch any fault.  It returns the outcome together with the
(unchanged) builder state: the source never calls `setNodes` or any other
state setter. -/
def handleSimulateNode {α β : Type}
    (engineExec : String → String → α → List (String × String) → Except String β)
    (st : WState) (nodeId : String) (inputData : α) : SimOutcome α β × WState :=
  match st.nodes.find? (fun n => n.id == nodeId) with
  | none => (SimOutcome.nodeNotFound, st)
  | some n =>
    match engineExec nodeId (n.type.getD "action") inputData n.data.config with
    | Except.ok r => (SimOutcome.ok r, st)
    | Except.error msg => (SimOutcome.failed msg inputData, st)

/-- The `handleStepExecution(nodeId)` handler (for contrast with simulation): single-node
execution through the engine oracle; on success the node's status is set to
`success` with updated execution info, on fault it is set to `error`. -/
def handleStepExecution {β : Type} (timeOf : β → Nat)
    (engineExec : String → String → List (String × String) → Except String β)
    (st : WState) (nodeId : String) : WState :=
  match st.nodes.find? (fun n => n.id == nodeId) with
  | none => st
  | some n =>
    match engineExec nodeId (n.type.getD "action") n.data.config with
    | Except.ok r =>
        { st with nodes := st.nodes.map (fun m =>
            if m.id == nodeId then
              { m with data :=
                  { m.data with status := "success", executionTime := some (timeOf r) } }
            else m) }
    | Except.error _ =>
        { st with nodes := st.nodes.map (fun m =>
            if m.id == nodeId then { m with data := { m.data with status := "error" } }
            else m) }

/-! ## Directed cycles and correctness of the DFS cycle detection -/

/-- The edge relation of the graph: `a` steps to `b` when some edge goes
from `a` to `b`. -/
def edgeStep (edges : List RFEdge) (a b : String) : Prop :=
  ∃ e ∈ edges, e.source = a ∧ e.target = b

/-- The graph contains a directed cycle: some id reaches itself in at least
one step. -/
def hasDirectedCycle (edges : List RFEdge) : Prop :=
  ∃ x, Relation.TransGen (edgeStep edges) x x

/-- A `step` function (one recursion level of `hasCycle`) grows `visited`
and, when it reports no cycle, restores the recursion stack exactly. -/
def StepProp (step : String → List String → List String →
    Option (Bool × List String × List String)) : Prop :=
  ∀ t v s b v' s', step t v s = some (b, v', s') → v ⊆ v' ∧ (b = false → s' = s)

theorem dfsLoop_prop {step} (hstep : StepProp step) :
    ∀ rem v s b v' s', dfsLoop step rem v s = some (b, v', s') →
      v ⊆ v' ∧ (b = false → s' = s) := by
  intro rem
  induction rem with
  | nil =>
    intro v s b v' s' h
    simp only [dfsLoop, Option.some.injEq, Prod.mk.injEq] at h
    obtain ⟨hb, hv, hs⟩ := h
    subst hv; subst hs
    exact ⟨List.Subset.refl _, fun _ => rfl⟩
  | cons e rest ih =>
    intro v s b v' s' h
    simp only [dfsLoop] at h
    cases hs : step e.target v s with
    | none => rw [hs] at h; exact absurd h (by simp)
    | some r =>
      obtain ⟨b₁, v₁, s₁⟩ := r
      rw [hs] at h
      have h₁ := hstep e.target v s b₁ v₁ s₁ hs
      cases b₁ with
      | true =>
        simp only [Option.some.injEq, Prod.mk.injEq] at h
        obtain ⟨hb, hv, hs'⟩ := h
        subst hv
        exact ⟨h₁.1, fun hbf => absurd (hb.trans hbf) (by simp)⟩
      | false =>
        simp only at h
        have h₂ := ih v₁ s₁ b v' s' h
        exact ⟨h₁.1.trans h₂.1, fun hb => (h₂.2 hb).trans (h₁.2 rfl)⟩

theorem dfs_prop (edges : List RFEdge) :
    ∀ fuel n v s b v' s', dfs edges fuel n v s = some (b, v', s') →
      v ⊆ v' ∧ (b = false → s' = s) := by
  intro fuel
  induction fuel with
  | zero => intro n v s b v' s' h; exact absurd h (by simp [dfs])
  | succ fuel ih =>
    intro n v s b v' s' h
    simp only [dfs] at h
    by_cases h1 : s.contains n
    · rw [if_pos h1] at h
      simp only [Option.some.injEq, Prod.mk.injEq] at h
      obtain ⟨hb, hv, hs⟩ := h
      subst hv; subst hs
      exact ⟨List.Subset.refl _, fun hbf => absurd (hb.trans hbf) (by simp)⟩
    · rw [if_neg h1] at h
      by_cases h2 : v.contains n
      · rw [if_pos h2] at h
        simp only [Option.some.injEq, Prod.mk.injEq] at h
        obtain ⟨hb, hv, hs⟩ := h
        subst hv; subst hs
        exact ⟨List.Subset.refl _, fun _ => rfl⟩
      · rw [if_neg h2] at h
        have hstep : StepProp (fun t v' s' => dfs edges fuel t v' s') :=
          fun t v₀ s₀ b₀ v₀' s₀' hc => ih t v₀ s₀ b₀ v₀' s₀' hc
        cases hl : dfsLoop (fun t v' s' => dfs edges fuel t v' s')
            (edges.filter (fun e => e.source == n)) (n :: v) (n :: s) with
        | none => rw [hl] at h; exact absurd h (by simp)
        | some r =>
          obtain ⟨b₁, v₁, s₁⟩ := r
          rw [hl] at h
          have hlp := dfsLoop_prop hstep _ _ _ _ _ _ hl
          have hsub : v ⊆ v₁ := (List.subset_cons_self n v).trans hlp.1
          cases b₁ with
          | true =>
            simp only [Option.some.injEq, Prod.mk.injEq] at h
            obtain ⟨hb, hv, hs'⟩ := h
            subst hv
            exact ⟨hsub, fun hbf => absurd (hb.trans hbf) (by simp)⟩
          | false =>
            simp only [Option.some.injEq, Prod.mk.injEq] at h
            obtain ⟨hb, hv, hs'⟩ := h
            subst hv; subst hs'
            refine ⟨hsub, fun _ => ?_⟩
            rw [hlp.2 rfl, List.erase_cons_head]

/-- Number of ids from the universe `U` not yet visited: the termination
measure of the source recursion. -/
def unvisitedCount (U v : List String) : Nat :=
  (U.filter (fun x => !v.contains x)).length

theorem filter_length_mono {p q : String → Bool} (l : List String)
    (h : ∀ x, p x = true → q x = true) :
    (l.filter p).length ≤ (l.filter q).length := by
  induction l with
  | nil => simp
  | cons a l ih =>
    by_cases hp : p a
    · rw [List.filter_cons, if_pos hp, List.filter_cons, if_pos (h a hp)]
      simpa using ih
    · rw [List.filter_cons, if_neg hp, List.filter_cons]
      by_cases hq : q a
      · rw [if_pos hq]; exact ih.trans (by simp)
      · rw [if_neg hq]; exact ih

theorem unvisitedCount_mono {v v' : List String} (U : List String) (h : v ⊆ v') :
    unvisitedCount U v' ≤ unvisitedCount U v := by
  refine filter_length_mono U (fun x hx => ?_)
  simp only [Bool.not_eq_true', ← Bool.not_eq_true, List.elem_iff] at hx ⊢
  exact fun hmem => hx (h hmem)

theorem unvisitedCount_cons_lt {U v : List String} {n : String}
    (hU : n ∈ U) (hv : n ∉ v) :
    unvisitedCount U (n :: v) < unvisitedCount U v := by
  induction U with
  | nil => simp at hU
  | cons u U ih =>
    unfold unvisitedCount
    by_cases hu : u = n
    · subst hu
      have hnew : ¬ ((!(u :: v).contains u) = true) := by simp
      have hold : (!v.contains u) = true := by simpa [List.elem_iff] using hv
      rw [List.filter_cons, List.filter_cons, if_neg hnew, if_pos hold]
      have hle : ((U.filter (fun x => !(u :: v).contains x)).length ≤
          (U.filter (fun x => !v.contains x)).length) := by
        refine filter_length_mono U (fun x hx => ?_)
        simp only [Bool.not_eq_true', ← Bool.not_eq_true, List.elem_iff] at hx ⊢
        intro hmem; exact hx (List.mem_cons_of_mem u hmem)
      simpa using Nat.lt_succ_of_le hle
    · have hU' : n ∈ U := by
        rcases List.mem_cons.mp hU with h | h
        · exact absurd h.symm hu
        · exact h
      have heq : (!(n :: v).contains u) = (!v.contains u) := by
        have hcc : ((n :: v).contains u) = (v.contains u) := by
          simp only [List.contains_cons]
          rw [show (u == n) = false from beq_eq_false_iff_ne.mpr hu]
          simp
        rw [hcc]
      unfold unvisitedCount at ih
      rw [List.filter_cons, List.filter_cons]
      by_cases hc : (!v.contains u) = true
      · rw [if_pos (heq.trans hc), if_pos hc]
        simpa using ih hU'
      · rw [if_neg (fun hcc => hc (heq ▸ hcc)), if_neg hc]
        exact ih hU'

theorem dfsLoop_sufficient {step : String → List String → List String →
      Option (Bool × List String × List String)} {U : List String} {F : Nat}
    (hprop : StepProp step)
    (hstep : ∀ t v s, t ∈ U → unvisitedCount U v < F → step t v s ≠ none) :
    ∀ rem v s, (∀ e ∈ rem, e.target ∈ U) → unvisitedCount U v < F →
      dfsLoop step rem v s ≠ none := by
  intro rem
  induction rem with
  | nil => intro v s _ _ h; simp [dfsLoop] at h
  | cons e rest ih =>
    intro v s hmem hcnt h
    simp only [dfsLoop] at h
    cases hs : step e.target v s with
    | none => exact hstep e.target v s (hmem e (List.mem_cons_self e rest)) hcnt hs
    | some r =>
      obtain ⟨b, v₁, s₁⟩ := r
      rw [hs] at h
      cases b with
      | true => simp at h
      | false =>
        simp only at h
        have hmono := (hprop e.target v s false v₁ s₁ hs).1
        exact ih v₁ s₁ (fun e' he' => hmem e' (List.mem_cons_of_mem e he'))
          (lt_of_le_of_lt (unvisitedCount_mono U hmono) hcnt) h

theorem dfs_sufficient (edges : List RFEdge) (U : List String)
    (hedges : ∀ e ∈ edges, e.target ∈ U) :
    ∀ fuel n v s, n ∈ U → unvisitedCount U v < fuel →
      dfs edges fuel n v s ≠ none := by
  intro fuel
  induction fuel with
  | zero => intro n v s _ hcnt; omega
  | succ fuel ih =>
    intro n v s hn hcnt h
    simp only [dfs] at h
    by_cases h1 : s.contains n
    · rw [if_pos h1] at h; simp at h
    · rw [if_neg h1] at h
      by_cases h2 : v.contains n
      · rw [if_pos h2] at h; simp at h
      · rw [if_neg h2] at h
        have hv : n ∉ v := fun hm => h2 (List.elem_iff.mpr hm)
        have hlt : unvisitedCount U (n :: v) < fuel := by
          have := unvisitedCount_cons_lt hn hv
          omega
        have hloop := dfsLoop_sufficient (U := U) (F := fuel)
          (fun t v₀ s₀ b₀ v₀' s₀' hc => dfs_prop edges fuel t v₀ s₀ b₀ v₀' s₀' hc)
          (fun t v₀ s₀ ht hc => ih t v₀ s₀ ht hc)
          (edges.filter (fun e => e.source == n)) (n :: v) (n :: s)
          (fun e he => hedges e (List.mem_of_mem_filter he)) hlt
        cases hl : dfsLoop (fun t v' s' => dfs edges fuel t v' s')
            (edges.filter (fun e => e.source == n)) (n :: v) (n :: s) with
        | none => exact hloop hl
        | some r =>
          obtain ⟨b, v₁, s₁⟩ := r
          rw [hl] at h
          cases b <;> simp at h

/-- The recursion stack is a path through the graph: each entry was reached
by an edge from the entry below it. -/
def stackOk (edges : List RFEdge) (s : List String) : Prop :=
  List.Chain' (fun x y => edgeStep edges y x) s

/-- A revisited on-stack id closes a path back to the top of the stack. -/
theorem stack_reach {edges : List RFEdge} :
    ∀ (t : List String) (h n : String), stackOk edges (h :: t) → n ∈ h :: t →
      Relation.ReflTransGen (edgeStep edges) n h := by
  intro t
  induction t with
  | nil =>
    intro h n _ hn
    rcases List.mem_cons.mp hn with rfl | hn
    · exact Relation.ReflTransGen.refl
    · simp at hn
  | cons b t ih =>
    intro h n hok hn
    have hok' := (List.chain'_cons.mp hok)
    rcases List.mem_cons.mp hn with rfl | hn
    · exact Relation.ReflTransGen.refl
    · exact Relation.ReflTransGen.tail (ih b n hok'.2 hn) hok'.1

theorem dfsLoop_sound {edges : List RFEdge}
    {step : String → List String → List String →
      Option (Bool × List String × List String)}
    (hprop : StepProp step) (s : List String) (n₀ : String)
    (hsound : ∀ t v v'' s'', edgeStep edges n₀ t →
      step t v s = some (true, v'', s'') → hasDirectedCycle edges) :
    ∀ rem v v' s', (∀ e ∈ rem, e ∈ edges ∧ e.source = n₀) →
      dfsLoop step rem v s = some (true, v', s') → hasDirectedCycle edges := by
  intro rem
  induction rem with
  | nil => intro v v' s' _ h; simp [dfsLoop] at h
  | cons e rest ih =>
    intro v v' s' hmem h
    simp only [dfsLoop] at h
    cases hs : step e.target v s with
    | none => rw [hs] at h; exact absurd h (by simp)
    | some r =>
      obtain ⟨b, v₁, s₁⟩ := r
      rw [hs] at h
      cases b with
      | true =>
        have he := hmem e (List.mem_cons_self e rest)
        exact hsound e.target v v₁ s₁ ⟨e, he.1, he.2, rfl⟩ hs
      | false =>
        simp only at h
        have hs₁ : s₁ = s := (hprop e.target v s false v₁ s₁ hs).2 rfl
        subst hs₁
        exact ih v₁ v' s' (fun e' he' => hmem e' (List.mem_cons_of_mem e he')) h

theorem dfs_sound (edges : List RFEdge) :
    ∀ fuel n v s v' s', stackOk edges s → (∀ h ∈ s.head?, edgeStep edges h n) →
      dfs edges fuel n v s = some (true, v', s') → hasDirectedCycle edges := by
  intro fuel
  induction fuel with
  | zero => intro n v s v' s' _ _ h; simp [dfs] at h
  | succ fuel ih =>
    intro n v s v' s' hok hhead h
    simp only [dfs] at h
    by_cases h1 : s.contains n
    · -- revisit of an on-stack id: close the cycle
      have hn : n ∈ s := List.elem_iff.mp h1
      cases s with
      | nil => simp at hn
      | cons hd t =>
        have hreach : Relation.ReflTransGen (edgeStep edges) n hd :=
          stack_reach t hd n hok hn
        have hstep : edgeStep edges hd n := hhead hd (by simp)
        exact ⟨n, Relation.TransGen.tail' hreach hstep⟩
    · rw [if_neg h1] at h
      by_cases h2 : v.contains n
      · rw [if_pos h2] at h; exact absurd h (by simp)
      · rw [if_neg h2] at h
        have hok' : stackOk edges (n :: s) := by
          cases s with
          | nil => simp [stackOk]
          | cons hd t =>
            exact List.chain'_cons.mpr ⟨hhead hd (by simp), hok⟩
        have hsound : ∀ t v₀ v₀' s₀', edgeStep edges n t →
            dfs edges fuel t v₀ (n :: s) = some (true, v₀', s₀') →
            hasDirectedCycle edges := by
          intro t v₀ v₀' s₀' hstep hc
          exact ih t v₀ (n :: s) v₀' s₀' hok' (by simpa using hstep) hc
        cases hl : dfsLoop (fun t v'' s'' => dfs edges fuel t v'' s'')
            (edges.filter (fun e => e.source == n)) (n :: v) (n :: s) with
        | none => rw [hl] at h; exact absurd h (by simp)
        | some r =>
          obtain ⟨b, v₁, s₁⟩ := r
          rw [hl] at h
          cases b with
          | true =>
            refine dfsLoop_sound
              (fun t v₀ s₀ b₀ v₀' s₀' hc => dfs_prop edges fuel t v₀ s₀ b₀ v₀' s₀' hc)
              (n :: s) n hsound _ (n :: v) v₁ s₁ (fun e he => ?_) hl
            have hmem := List.mem_of_mem_filter he
            have hsrc : e.source = n := by
              have := List.of_mem_filter he
              simpa using this
            exact ⟨hmem, hsrc⟩
          | false => simp at h

theorem cycleScan_sound (edges : List RFEdge) (fuel : Nat) :
    ∀ ns v nid, cycleScan edges fuel ns v [] = some nid → hasDirectedCycle edges := by
  intro ns
  induction ns with
  | nil => intro v nid h; simp [cycleScan] at h
  | cons n rest ih =>
    intro v nid h
    simp only [cycleScan] at h
    cases hs : dfs edges fuel n.id v [] with
    | none => rw [hs] at h; exact absurd h (by simp)
    | some r =>
      obtain ⟨b, v₁, s₁⟩ := r
      rw [hs] at h
      cases b with
      | true =>
        exact dfs_sound edges fuel n.id v [] v₁ s₁ (by simp [stackOk]) (by simp) hs
      | false =>
        simp only at h
        have hs₁ : s₁ = [] := (dfs_prop edges fuel n.id v [] false v₁ s₁ hs).2 rfl
        subst hs₁
        exact ih v₁ nid h

/-- DFS colouring invariant: every finished ("black") id — visited and not
on the recursion stack — has only black successors and lies on no cycle. -/
def DfsInv (edges : List RFEdge) (v s : List String) : Prop :=
  ∀ a, a ∈ v → a ∉ s →
    (∀ b, edgeStep edges a b → b ∈ v ∧ b ∉ s) ∧
    ¬ Relation.TransGen (edgeStep edges) a a

theorem black_reach {edges : List RFEdge} {v s : List String} (hinv : DfsInv edges v s)
    {a b : String} (ha : a ∈ v) (has : a ∉ s)
    (hr : Relation.ReflTransGen (edgeStep edges) a b) : b ∈ v ∧ b ∉ s := by
  induction hr with
  | refl => exact ⟨ha, has⟩
  | tail h₁ h₂ ih => exact (hinv _ ih.1 ih.2).1 _ h₂

theorem inv_push {edges : List RFEdge} {v s : List String} {n : String}
    (hinv : DfsInv edges v s) (hn : n ∉ v) : DfsInv edges (n :: v) (n :: s) := by
  intro a ha has
  have hne : a ≠ n := fun h => has (h ▸ List.mem_cons_self n s)
  have ha' : a ∈ v := (List.mem_cons.mp ha).resolve_left hne
  have has' : a ∉ s := fun h => has (List.mem_cons_of_mem n h)
  obtain ⟨hsucc, hcyc⟩ := hinv a ha' has'
  refine ⟨fun b hb => ?_, hcyc⟩
  obtain ⟨hbv, hbs⟩ := hsucc b hb
  have hbn : b ≠ n := fun h => hn (h ▸ hbv)
  exact ⟨List.mem_cons_of_mem n hbv,
    fun h => (List.mem_cons.mp h).elim hbn hbs⟩

theorem inv_finish {edges : List RFEdge} {v s : List String} {n : String}
    (hinv : DfsInv edges v (n :: s)) (hn : n ∈ v)
    (hsucc : ∀ b, edgeStep edges n b → b ∈ v ∧ b ∉ n :: s) : DfsInv edges v s := by
  intro a ha has
  by_cases hne : a = n
  · subst hne
    refine ⟨fun b hb => ⟨(hsucc b hb).1, fun hbs => (hsucc b hb).2
      (List.mem_cons_of_mem a hbs)⟩, ?_⟩
    intro hcyc
    obtain ⟨c, hc, hreach⟩ := Relation.TransGen.head'_iff.mp hcyc
    obtain ⟨hcv, hcs⟩ := hsucc c hc
    have := black_reach hinv hcv hcs hreach
    exact this.2 (List.mem_cons_self a s)
  · have has' : a ∉ n :: s := fun h => (List.mem_cons.mp h).elim hne has
    obtain ⟨hsucc', hcyc⟩ := hinv a ha has'
    refine ⟨fun b hb => ?_, hcyc⟩
    obtain ⟨hbv, hbs⟩ := hsucc' b hb
    exact ⟨hbv, fun h => hbs (List.mem_cons_of_mem n h)⟩

theorem dfsLoop_complete {edges : List RFEdge}
    {step : String → List String → List String →
      Option (Bool × List String × List String)}
    (hprop : StepProp step)
    (hstep : ∀ t v s v' s', DfsInv edges v s → step t v s = some (false, v', s') →
      DfsInv edges v' s' ∧ t ∈ v' ∧ t ∉ s) :
    ∀ rem v s v' s', DfsInv edges v s → dfsLoop step rem v s = some (false, v', s') →
      DfsInv edges v' s' ∧ (∀ e ∈ rem, e.target ∈ v' ∧ e.target ∉ s) := by
  intro rem
  induction rem with
  | nil =>
    intro v s v' s' hinv h
    simp only [dfsLoop, Option.some.injEq, Prod.mk.injEq] at h
    obtain ⟨hv, hs⟩ := h.2
    subst hv; subst hs
    exact ⟨hinv, by simp⟩
  | cons e rest ih =>
    intro v s v' s' hinv h
    simp only [dfsLoop] at h
    cases hs : step e.target v s with
    | none => rw [hs] at h; exact absurd h (by simp)
    | some r =>
      obtain ⟨b, v₁, s₁⟩ := r
      rw [hs] at h
      cases b with
      | true => simp at h
      | false =>
        simp only at h
        have hs₁ : s₁ = s := (hprop e.target v s false v₁ s₁ hs).2 rfl
        rw [hs₁] at hs h
        obtain ⟨hinv₁, htv, hts⟩ := hstep e.target v s v₁ s hinv hs
        obtain ⟨hinv', hrest⟩ := ih v₁ s v' s' hinv₁ h
        have hmono : v₁ ⊆ v' := (dfsLoop_prop hprop rest v₁ s false v' s' h).1
        refine ⟨hinv', fun e' he' => ?_⟩
        rcases List.mem_cons.mp he' with rfl | he'
        · exact ⟨hmono htv, hts⟩
        · exact hrest e' he'

theorem dfs_complete (edges : List RFEdge) :
    ∀ fuel n v s v' s', DfsInv edges v s → dfs edges fuel n v s = some (false, v', s') →
      DfsInv edges v' s' ∧ n ∈ v' ∧ n ∉ s := by
  intro fuel
  induction fuel with
  | zero => intro n v s v' s' _ h; simp [dfs] at h
  | succ fuel ih =>
    intro n v s v' s' hinv h
    simp only [dfs] at h
    by_cases h1 : s.contains n
    · rw [if_pos h1] at h; exact absurd h (by simp)
    · rw [if_neg h1] at h
      have hns : n ∉ s := fun hm => h1 (List.elem_iff.mpr hm)
      by_cases h2 : v.contains n
      · rw [if_pos h2] at h
        simp only [Option.some.injEq, Prod.mk.injEq] at h
        obtain ⟨_, hv, hsx⟩ := h
        subst hv; subst hsx
        exact ⟨hinv, List.elem_iff.mp h2, hns⟩
      · rw [if_neg h2] at h
        have hnv : n ∉ v := fun hm => h2 (List.elem_iff.mpr hm)
        cases hl : dfsLoop (fun t v'' s'' => dfs edges fuel t v'' s'')
            (edges.filter (fun e => e.source == n)) (n :: v) (n :: s) with
        | none => rw [hl] at h; exact absurd h (by simp)
        | some r =>
          obtain ⟨b, v₁, s₁⟩ := r
          rw [hl] at h
          cases b with
          | true => exact absurd h (by simp)
          | false =>
            simp only [Option.some.injEq, Prod.mk.injEq] at h
            obtain ⟨_, hv, hsx⟩ := h
            subst hv; subst hsx
            have hprop : StepProp (fun t v'' s'' => dfs edges fuel t v'' s'') :=
              fun t v₀ s₀ b₀ v₀' s₀' hc => dfs_prop edges fuel t v₀ s₀ b₀ v₀' s₀' hc
            have hs₁ : s₁ = n :: s :=
              (dfsLoop_prop hprop _ _ _ _ _ _ hl).2 rfl
            subst hs₁
            obtain ⟨hinv₁, hsucc⟩ := dfsLoop_complete hprop
              (fun t v₀ s₀ v₀' s₀' hi hc => ih t v₀ s₀ v₀' s₀' hi hc)
              _ (n :: v) (n :: s) v₁ (n :: s) (inv_push hinv hnv) hl
            have hnv₁ : n ∈ v₁ :=
              (dfsLoop_prop hprop _ _ _ _ _ _ hl).1 (List.mem_cons_self n v)
            have hsucc' : ∀ b, edgeStep edges n b → b ∈ v₁ ∧ b ∉ n :: s := by
              intro b hb
              obtain ⟨e, he, hesrc, hetgt⟩ := hb
              have hef : e ∈ edges.filter (fun e => e.source == n) := by
                refine List.mem_filter.mpr ⟨he, ?_⟩
                simp [hesrc]
              have := hsucc e hef
              rw [hetgt] at this
              exact ⟨this.1, this.2⟩
            have hfin : DfsInv edges v₁ s := inv_finish hinv₁ hnv₁ hsucc'
            rw [List.erase_cons_head]
            exact ⟨hfin, hnv₁, hns⟩

theorem cycleScan_none_post (edges : List RFEdge) (U : List String) (fuel : Nat)
    (hedges : ∀ e ∈ edges, e.target ∈ U) :
    ∀ ns v, (∀ n ∈ ns, n.id ∈ U) → unvisitedCount U v < fuel → DfsInv edges v [] →
      cycleScan edges fuel ns v [] = none →
      ∃ v', DfsInv edges v' [] ∧ v ⊆ v' ∧ ∀ n ∈ ns, n.id ∈ v' := by
  intro ns
  induction ns with
  | nil => intro v _ _ hinv _; exact ⟨v, hinv, List.Subset.refl v, by simp⟩
  | cons n rest ih =>
    intro v hids hcnt hinv h
    simp only [cycleScan] at h
    cases hs : dfs edges fuel n.id v [] with
    | none =>
      exact absurd hs (dfs_sufficient edges U hedges fuel n.id v []
        (hids n (List.mem_cons_self n rest)) hcnt)
    | some r =>
      obtain ⟨b, v₁, s₁⟩ := r
      rw [hs] at h
      cases b with
      | true => simp at h
      | false =>
        simp only at h
        have hs₁ : s₁ = [] := (dfs_prop edges fuel n.id v [] false v₁ s₁ hs).2 rfl
        rw [hs₁] at hs h
        obtain ⟨hinv₁, hnid, _⟩ := dfs_complete edges fuel n.id v [] v₁ [] hinv hs
        have hmono : v ⊆ v₁ := (dfs_prop edges fuel n.id v [] false v₁ [] hs).1
        have hcnt₁ : unvisitedCount U v₁ < fuel :=
          lt_of_le_of_lt (unvisitedCount_mono U hmono) hcnt
        obtain ⟨v', hinv', hsub', hall⟩ := ih v₁
          (fun m hm => hids m (List.mem_cons_of_mem n hm)) hcnt₁ hinv₁ h
        refine ⟨v', hinv', hmono.trans hsub', fun m hm => ?_⟩
        rcases List.mem_cons.mp hm with rfl | hm
        · exact hsub' hnid
        · exact hall m hm

/-- If `findCycleNode` reports a node, the graph really has a directed cycle. -/
theorem findCycleNode_sound {nodes : List RFNode} {edges : List RFEdge} {nid : String}
    (h : findCycleNode nodes edges = some nid) : hasDirectedCycle edges :=
  cycleScan_sound edges (scanFuel nodes edges) nodes [] nid h

/-- If the graph has a directed cycle and every edge source is a node id,
the scan reports some node. -/
theorem findCycleNode_complete {nodes : List RFNode} {edges : List RFEdge}
    (hwf : ∀ e ∈ edges, ∃ n ∈ nodes, n.id = e.source)
    (hcyc : hasDirectedCycle edges) : findCycleNode nodes edges ≠ none := by
  intro h
  set U := ((nodes.map (fun n => n.id) ++ edges.map (fun e => e.target)).dedup) with hU
  have hedges : ∀ e ∈ edges, e.target ∈ U := by
    intro e he
    rw [hU, List.mem_dedup]
    exact List.mem_append_right _ (List.mem_map_of_mem _ he)
  have hids : ∀ n ∈ nodes, n.id ∈ U := by
    intro n hn
    rw [hU, List.mem_dedup]
    exact List.mem_append_left _ (List.mem_map_of_mem _ hn)
  have hcnt : unvisitedCount U [] < scanFuel nodes edges := by
    have : unvisitedCount U [] ≤ U.length := by
      unfold unvisitedCount
      exact List.length_filter_le _ _
    simp only [scanFuel, ← hU] at *
    omega
  have hinv : DfsInv edges [] [] := by intro a ha _; simp at ha
  obtain ⟨v', hinv', _, hall⟩ :=
    cycleScan_none_post edges U (scanFuel nodes edges) hedges nodes [] hids hcnt hinv h
  obtain ⟨x, hx⟩ := hcyc
  obtain ⟨c, hstep, _⟩ := Relation.TransGen.head'_iff.mp hx
  obtain ⟨e, he, hesrc, _⟩ := hstep
  obtain ⟨n, hn, hnid⟩ := hwf e he
  have hxv : x ∈ v' := by
    have := hall n hn
    rwa [hnid, hesrc] at this
  exact (hinv' x hxv (by simp)).2 hx

/-- In the validator's output, the error issues attached to a node are
exactly the cycle issues (the only other error, `no-trigger`, carries no
node id). -/
theorem validate_filter_error_node (nodes : List RFNode) (edges : List RFEdge) :
    (validate nodes edges).filter (fun i => i.type == "error" && i.nodeId.isSome) =
      cycleIssues nodes edges := by
  unfold validate
  rw [List.filter_append, List.filter_append, List.filter_append, List.filter_append]
  have h1 : (noTriggerIssues nodes).filter
      (fun i => i.type == "error" && i.nodeId.isSome) = [] := by
    unfold noTriggerIssues
    split <;> simp
  have h2 : (isolationIssues nodes edges).filter
      (fun i => i.type == "error" && i.nodeId.isSome) = [] := by
    rw [List.filter_eq_nil_iff]
    intro i hi
    simp only [isolationIssues, List.mem_filterMap] at hi
    obtain ⟨n, _, hn⟩ := hi
    by_cases hc : isolatedPred edges n
    · rw [if_pos hc] at hn
      cases hn
      simp [mkIsolatedIssue]
    · rw [if_neg hc] at hn
      cases hn
  have h3 : (conditionIssues nodes edges).filter
      (fun i => i.type == "error" && i.nodeId.isSome) = [] := by
    rw [List.filter_eq_nil_iff]
    intro i hi
    simp only [conditionIssues, List.mem_filterMap] at hi
    obtain ⟨n, _, hn⟩ := hi
    by_cases hc : ((edges.filter (fun e => e.source == n.id)).length == 0)
    · rw [if_pos hc] at hn
      cases hn
      simp
    · rw [if_neg hc] at hn
      cases hn
  have h5 : (disabledCriticalIssues nodes).filter
      (fun i => i.type == "error" && i.nodeId.isSome) = [] := by
    rw [List.filter_eq_nil_iff]
    intro i hi
    simp only [disabledCriticalIssues, List.mem_map] at hi
    obtain ⟨n, _, hn⟩ := hi
    cases hn
    simp
  have h4 : (cycleIssues nodes edges).filter
      (fun i => i.type == "error" && i.nodeId.isSome) = cycleIssues nodes edges := by
    unfold cycleIssues
    cases findCycleNode nodes edges <;> simp
  rw [h1, h2, h3, h4, h5]
  simp

/-- C2: for every graph (edge endpoints referencing present nodes, per the
data-model invariant) that contains a directed cycle, `validate` emits
exactly one cycle error issue; for every acyclic graph it emits none; and
the node-attached error issues counted here are precisely the cycle
reports. -/
theorem c2_cycle_detection (nodes : List RFNode) (edges : List RFEdge)
    (hwf : ∀ e ∈ edges, (∃ n ∈ nodes, n.id = e.source) ∧ (∃ n ∈ nodes, n.id = e.target)) :
    (hasDirectedCycle edges →
      ((validate nodes edges).filter
        (fun i => i.type == "error" && i.nodeId.isSome)).length = 1) ∧
    (¬ hasDirectedCycle edges →
      ((validate nodes edges).filter
        (fun i => i.type == "error" && i.nodeId.isSome)).length = 0) ∧
    (∀ i ∈ validate nodes edges, (i.type == "error" && i.nodeId.isSome) = true →
      i.message = cycleMessage) := by
  refine ⟨?_, ?_, ?_⟩
  · intro hcyc
    rw [validate_filter_error_node]
    have hsome : findCycleNode nodes edges ≠ none :=
      findCycleNode_complete (fun e he => (hwf e he).1) hcyc
    unfold cycleIssues
    cases hf : findCycleNode nodes edges with
    | none => exact absurd hf hsome
    | some nid => simp
  · intro hacyc
    rw [validate_filter_error_node]
    unfold cycleIssues
    cases hf : findCycleNode nodes edges with
    | none => simp
    | some nid => exact absurd (findCycleNode_sound hf) hacyc
  · intro i hi hp
    have hmem : i ∈ (validate nodes edges).filter
        (fun i => i.type == "error" && i.nodeId.isSome) :=
      List.mem_filter.mpr ⟨hi, hp⟩
    rw [validate_filter_error_node] at hmem
    unfold cycleIssues at hmem
    cases hf : findCycleNode nodes edges with
    | none => rw [hf] at hmem; simp at hmem
    | some nid =>
      rw [hf] at hmem
      simp only [List.mem_singleton] at hmem
      rw [hmem]

/-- Witness for `c2_cycle_detection` at a concrete one-node graph with a
self-loop: its hypotheses hold and exactly one cycle error is emitted. -/
theorem c2_cycle_detection_witness :
    (∀ e ∈ [({ id := "e", source := "a", target := "a" } : RFEdge)],
      (∃ n ∈ [({ id := "a", type := some "action", position := (0, 0),
                 data := { label := "A", status := "idle", enabled := none,
                           lastExecuted := none, executionTime := none,
                           config := [] } } : RFNode)], n.id = e.source) ∧
      (∃ n ∈ [({ id := "a", type := some "action", position := (0, 0),
                 data := { label := "A", status := "idle", enabled := none,
                           lastExecuted := none, executionTime := none,
                           config := [] } } : RFNode)], n.id = e.target)) ∧
    ((validate
        [({ id := "a", type := some "action", position := (0, 0),
            data := { label := "A", status := "idle", enabled := none,
                      lastExecuted := none, executionTime := none,
                      config := [] } } : RFNode)]
        [({ id := "e", source := "a", target := "a" } : RFEdge)]).filter
      (fun i => i.type == "error" && i.nodeId.isSome)).length = 1 := by
  refine ⟨by decide, ?_⟩
  refine (c2_cycle_detection _ _ (by decide)).1 ?_
  exact ⟨"a", Relation.TransGen.single ⟨{ id := "e", source := "a", target := "a" },
    by simp, rfl, rfl⟩⟩

/-- C1 as stated is false: with validation enabled, a cyclic graph that has
an enabled trigger yields `errorCount > 0` yet the run is not blocked, and
a graph whose only trigger is disabled yields `errorCount = 0` yet the run
is blocked. -/
theorem c1_counterexample :
    (0 < errorCount
        [({ id := "t", type := some "trigger", position := (0, 0),
            data := { label := "T", status := "idle", enabled := none,
                      lastExecuted := none, executionTime := none, config := [] } } : RFNode),
         ({ id := "a", type := some "action", position := (0, 0),
            data := { label := "A", status := "idle", enabled := none,
                      lastExecuted := none, executionTime := none, config := [] } } : RFNode)]
        [({ id := "e1", source := "t", target := "a" } : RFEdge),
         ({ id := "e2", source := "a", target := "a" } : RFEdge)] ∧
     runBlocked { timeout := 300, retryAttempts := 3, enableValidation := true,
                  executionMode := "sequential", errorHandling := "stop" }
        [({ id := "t", type := some "trigger", position := (0, 0),
            data := { label := "T", status := "idle", enabled := none,
                      lastExecuted := none, executionTime := none, config := [] } } : RFNode),
         ({ id := "a", type := some "action", position := (0, 0),
            data := { label := "A", status := "idle", enabled := none,
                      lastExecuted := none, executionTime := none, config := [] } } : RFNode)]
        = false) ∧
    (errorCount
        [({ id := "t", type := some "trigger", position := (0, 0),
            data := { label := "T", status := "idle", enabled := some false,
                      lastExecuted := none, executionTime := none, config := [] } } : RFNode)]
        [] = 0 ∧
     runBlocked { timeout := 300, retryAttempts := 3, enableValidation := true,
                  executionMode := "sequential", errorHandling := "stop" }
        [({ id := "t", type := some "trigger", position := (0, 0),
            data := { label := "T", status := "idle", enabled := some false,
                      lastExecuted := none, executionTime := none, config := [] } } : RFNode)]
        = true) := by
  decide

/-- C1 amended: with validation enabled, `executeWorkflow` blocks the run
exactly when the graph has no enabled trigger node; the validator's issue
list (errors included) plays no role in the gate. -/
theorem c1_run_gating (settings : WorkflowSettingsState) (nodes : List RFNode) :
    runBlocked settings nodes = true ↔
      (settings.enableValidation = true ∧
        ∀ n ∈ nodes, ¬ (n.type = some "trigger" ∧ n.data.enabled ≠ some false)) := by
  unfold runBlocked
  rw [Bool.and_eq_true]
  refine and_congr Iff.rfl ?_
  rw [beq_iff_eq, List.length_eq_zero, List.filter_eq_nil_iff]
  constructor
  · intro h n hn hcon
    refine h n hn ?_
    rw [Bool.and_eq_true, beq_iff_eq, bne_iff_ne]
    exact ⟨hcon.1, hcon.2⟩
  · intro h n hn hp
    rw [Bool.and_eq_true, beq_iff_eq, bne_iff_ne] at hp
    exact h n hn ⟨hp.1, hp.2⟩

/-- C8: `clearExecution` resets every node's status to idle, empties the
log, and zeroes the run counters, for every prior state. -/
theorem c8_clear_execution (st : WState) :
    (∀ n ∈ (clearExecution st).nodes, n.data.status = "idle") ∧
    (clearExecution st).executionLog = [] ∧
    (clearExecution st).totalNodes = 0 ∧
    (clearExecution st).completedNodes = 0 := by
  refine ⟨?_, rfl, rfl, rfl⟩
  intro n hn
  simp only [clearExecution, List.mem_map] at hn
  obtain ⟨m, _, rfl⟩ := hn
  rfl

/-- C7: simulating a node returns only a result; the builder state — in
particular every node's runtime status — is unchanged whether the engine
call succeeds or faults. -/
theorem c7_simulate_frame {α β : Type}
    (engineExec : String → String → α → List (String × String) → Except String β)
    (st : WState) (nodeId : String) (inputData : α) :
    (handleSimulateNode engineExec st nodeId inputData).2 = st := by
  unfold handleSimulateNode
  cases hfind : st.nodes.find? (fun n => n.id == nodeId) with
  | none => rfl
  | some n =>
    cases hexec : engineExec nodeId (n.type.getD "action") inputData n.data.config with
    | ok r => simp [hexec]
    | error msg => simp [hexec]

/-- Edge-endpoint invariant of the data model: every edge's source and
target is the id of a node present in the same snapshot. -/
def edgeEndpointsValid (st : WState) : Prop :=
  ∀ e ∈ st.edges, (∃ n ∈ st.nodes, n.id = e.source) ∧ (∃ n ∈ st.nodes, n.id = e.target)

/-- C9: node deletion (single or selection) removes every edge touching a
deleted node and preserves the endpoint invariant; connecting preserves it
provided the connection references existing nodes (which React Flow
guarantees, since connections are drawn between rendered handles). -/
theorem c9_edge_invariant :
    (∀ (st : WState) (nid : String), edgeEndpointsValid st →
      edgeEndpointsValid (onDeleteNode nid st) ∧
      ∀ e ∈ st.edges, (e.source = nid ∨ e.target = nid) →
        e ∉ (onDeleteNode nid st).edges) ∧
    (∀ st : WState, edgeEndpointsValid st →
      edgeEndpointsValid (deleteSelectedNodes st) ∧
      ∀ e ∈ st.edges, (e.source ∈ st.selectedNodes ∨ e.target ∈ st.selectedNodes) →
        e ∉ (deleteSelectedNodes st).edges) ∧
    (∀ (st : WState) (c : Connection), edgeEndpointsValid st →
      (∀ src, c.source = some src → ∃ n ∈ st.nodes, n.id = src) →
      (∀ tgt, c.target = some tgt → ∃ n ∈ st.nodes, n.id = tgt) →
      edgeEndpointsValid (onConnect c st)) := by
  refine ⟨?_, ?_, ?_⟩
  · intro st nid hinv
    constructor
    · intro e he
      simp only [onDeleteNode, List.mem_filter, Bool.and_eq_true, bne_iff_ne, ne_eq] at he
      obtain ⟨he, hsrc, htgt⟩ := he
      obtain ⟨⟨n₁, hn₁, hid₁⟩, ⟨n₂, hn₂, hid₂⟩⟩ := hinv e he
      constructor
      · refine ⟨n₁, List.mem_filter.mpr ⟨hn₁, ?_⟩, hid₁⟩
        simpa [bne_iff_ne] using hid₁ ▸ hsrc
      · refine ⟨n₂, List.mem_filter.mpr ⟨hn₂, ?_⟩, hid₂⟩
        simpa [bne_iff_ne] using hid₂ ▸ htgt
    · intro e he htouch hmem
      simp only [onDeleteNode, List.mem_filter, Bool.and_eq_true, bne_iff_ne, ne_eq] at hmem
      rcases htouch with h | h
      · exact hmem.2.1 h
      · exact hmem.2.2 h
  · intro st hinv
    constructor
    · intro e he
      simp only [deleteSelectedNodes, List.mem_filter, Bool.and_eq_true,
        Bool.not_eq_true', ← Bool.not_eq_true, List.elem_iff] at he
      obtain ⟨he, hsrc, htgt⟩ := he
      obtain ⟨⟨n₁, hn₁, hid₁⟩, ⟨n₂, hn₂, hid₂⟩⟩ := hinv e he
      constructor
      · refine ⟨n₁, List.mem_filter.mpr ⟨hn₁, ?_⟩, hid₁⟩
        simp only [Bool.not_eq_true', ← Bool.not_eq_true, List.elem_iff]
        rw [hid₁]; exact hsrc
      · refine ⟨n₂, List.mem_filter.mpr ⟨hn₂, ?_⟩, hid₂⟩
        simp only [Bool.not_eq_true', ← Bool.not_eq_true, List.elem_iff]
        rw [hid₂]; exact htgt
    · intro e he htouch hmem
      simp only [deleteSelectedNodes, List.mem_filter, Bool.and_eq_true,
        Bool.not_eq_true', ← Bool.not_eq_true, List.elem_iff] at hmem
      rcases htouch with h | h
      · exact hmem.2.1 h
      · exact hmem.2.2 h
  · intro st c hinv hsrc htgt
    obtain ⟨cs, ct⟩ := c
    cases cs with
    | none => cases ct <;> exact fun e he => hinv e he
    | some src =>
      cases ct with
      | none => exact fun e he => hinv e he
      | some tgt =>
        intro e he
        simp only [onConnect, addEdge] at he
        by_cases hdup : st.edges.any (fun e => e.source == src && e.target == tgt)
        · rw [if_pos hdup] at he; exact hinv e he
        · rw [if_neg hdup] at he
          rcases List.mem_append.mp he with he | he
          · exact hinv e he
          · simp only [List.mem_singleton] at he
            subst he
            exact ⟨hsrc src rfl, htgt tgt rfl⟩

/-- Witness for `c9_edge_invariant` at a concrete two-node graph: deleting
one node drops its edge and keeps the invariant, and connecting the two
nodes keeps the invariant. -/
theorem c9_edge_invariant_witness :
    edgeEndpointsValid (onDeleteNode "b"
      { nodes := [{ id := "a", type := some "trigger", position := (0, 0),
                    data := { label := "A", status := "idle", enabled := none,
                              lastExecuted := none, executionTime := none, config := [] } },
                  { id := "b", type := some "action", position := (0, 0),
                    data := { label := "B", status := "idle", enabled := none,
                              lastExecuted := none, executionTime := none, config := [] } }],
        edges := [{ id := "e", source := "a", target := "b" }],
        selectedNode := none, selectedNodes := [], executionLog := [],
        executionFlow := [], currentExecutingNode := none,
        totalNodes := 0, completedNodes := 0 }) ∧
    edgeEndpointsValid (onConnect { source := some "a", target := some "b" }
      { nodes := [{ id := "a", type := some "trigger", position := (0, 0),
                    data := { label := "A", status := "idle", enabled := none,
                              lastExecuted := none, executionTime := none, config := [] } },
                  { id := "b", type := some "action", position := (0, 0),
                    data := { label := "B", status := "idle", enabled := none,
                              lastExecuted := none, executionTime := none, config := [] } }],
        edges := [], selectedNode := none, selectedNodes := [], executionLog := [],
        executionFlow := [], currentExecutingNode := none,
        totalNodes := 0, completedNodes := 0 }) := by
  constructor
  · exact (c9_edge_invariant.1 _ "b" (by unfold edgeEndpointsValid; decide)).1
  · exact c9_edge_invariant.2.2 _ _ (by unfold edgeEndpointsValid; decide)
      (by decide) (by decide)

/-- C10 as stated is false on the freshness part: the duplicate's id is
`` `${type}-${Date.now()}` ``, which can collide with an existing node id —
here duplicating the node with id "action-7" at timestamp 7 produces a
second node with the very same id. -/
theorem c10_counterexample :
    ((onDuplicateNode 7 "action-7"
      { nodes := [{ id := "action-7", type := some "action", position := (0, 0),
                    data := { label := "A", status := "idle", enabled := none,
                              lastExecuted := none, executionTime := none, config := [] } }],
        edges := [], selectedNode := none, selectedNodes := [], executionLog := [],
        executionFlow := [], currentExecutingNode := none,
        totalNodes := 0, completedNodes := 0 }).nodes.map (fun n => n.id))
      = ["action-7", "action-7"] ∧
    ¬ ((onDuplicateNode 7 "action-7"
      { nodes := [{ id := "action-7", type := some "action", position := (0, 0),
                    data := { label := "A", status := "idle", enabled := none,
                              lastExecuted := none, executionTime := none, config := [] } }],
        edges := [], selectedNode := none, selectedNodes := [], executionLog := [],
        executionFlow := [], currentExecutingNode := none,
        totalNodes := 0, completedNodes := 0 }).nodes.map (fun n => n.id)).Nodup := by
  decide

/-- C10 amended: duplicating an existing node appends exactly one node —
with id `type-timestamp` (fresh provided no existing node already carries
that id), status reset to idle, label suffixed with " (Copy)", position
offset by (50, 50) — and leaves the original nodes and the entire edge set
unchanged. -/
theorem c10_duplicate (st : WState) (nodeId : String) (now : Nat) (n : RFNode)
    (hfind : st.nodes.find? (fun m => m.id == nodeId) = some n)
    (hfresh : dupId n now ∉ st.nodes.map (fun m => m.id)) :
    (onDuplicateNode now nodeId st).nodes = st.nodes ++ [dupNode n now] ∧
    (onDuplicateNode now nodeId st).edges = st.edges ∧
    (dupNode n now).id ∉ st.nodes.map (fun m => m.id) ∧
    (dupNode n now).data.status = "idle" ∧
    (dupNode n now).data.label = n.data.label ++ " (Copy)" ∧
    (dupNode n now).position = (n.position.1 + 50, n.position.2 + 50) := by
  unfold onDuplicateNode
  rw [hfind]
  exact ⟨rfl, rfl, hfresh, rfl, rfl, rfl⟩

/-- Witness for `c10_duplicate`: duplicating the node "a" at timestamp 5
appends one idle "(Copy)" node with the fresh id "action-5". -/
theorem c10_duplicate_witness :
    ((onDuplicateNode 5 "a"
      { nodes := [{ id := "a", type := some "action", position := (10, 20),
                    data := { label := "A", status := "success", enabled := none,
                              lastExecuted := none, executionTime := none, config := [] } }],
        edges := [], selectedNode := none, selectedNodes := [], executionLog := [],
        executionFlow := [], currentExecutingNode := none,
        totalNodes := 0, completedNodes := 0 }).nodes =
      [{ id := "a", type := some "action", position := (10, 20),
         data := { label := "A", status := "success", enabled := none,
                   lastExecuted := none, executionTime := none, config := [] } }] ++
      [dupNode { id := "a", type := some "action", position := (10, 20),
                 data := { label := "A", status := "success", enabled := none,
                           lastExecuted := none, executionTime := none, config := [] } } 5]) ∧
    (dupNode { id := "a", type := some "action", position := (10, 20),
               data := { label := "A", status := "success", enabled := none,
                         lastExecuted := none, executionTime := none, config := [] } } 5).id
      = "action-5" := by
  refine ⟨(c10_duplicate _ "a" 5 _ (by decide) (by decide)).1, by decide⟩

/-! ## Isolation-warning characterisation (claim C6) -/

theorem str_eq_of_data_eq {a b : String} (h : a.data = b.data) : a = b := by
  cases a; cases b; simp only at h; rw [h]

theorem str_append_left_cancel {p a b : String} (h : p ++ a = p ++ b) : a = b := by
  have hd := congrArg String.data h
  rw [String.data_append, String.data_append] at hd
  exact str_eq_of_data_eq (List.append_cancel_left hd)

theorem str_ne_of_take2 {s t : String} (h : s.data.take 2 ≠ t.data.take 2) : s ≠ t :=
  fun he => h (by rw [he])

theorem str_take2_append (p a : String) (hp : 2 ≤ p.data.length) :
    (p ++ a).data.take 2 = p.data.take 2 := by
  rw [String.data_append]
  exact List.take_append_of_le_length hp

theorem isolated_id_beq (mid nid : String) :
    (("isolated-" ++ mid : String) == ("isolated-" ++ nid : String)) = (mid == nid) := by
  by_cases h : mid = nid
  · rw [h]; simp
  · have hne : ("isolated-" ++ mid : String) ≠ "isolated-" ++ nid :=
      fun he => h (str_append_left_cancel he)
    rw [beq_eq_false_iff_ne.mpr hne, beq_eq_false_iff_ne.mpr h]

theorem isolation_filter_eq (nodes : List RFNode) (edges : List RFEdge) (nid : String) :
    (isolationIssues nodes edges).filter (fun i => i.id == "isolated-" ++ nid) =
      (nodes.filter (fun m => m.id == nid && isolatedPred edges m)).map mkIsolatedIssue := by
  induction nodes with
  | nil => rfl
  | cons m ns ih =>
    simp only [isolationIssues] at ih ⊢
    rw [List.filterMap_cons]
    by_cases hp : isolatedPred edges m
    · rw [if_pos hp]
      by_cases hb : (m.id == nid) = true
      · have h1 : ((mkIsolatedIssue m).id == "isolated-" ++ nid) = true :=
          (isolated_id_beq m.id nid).trans hb
        simp only [List.filter_cons, h1, hb, hp, Bool.true_and, List.map_cons]
        simp only [if_true]
        rw [ih, List.map_cons]
      · have hb' : (m.id == nid) = false := Bool.eq_false_iff.mpr hb
        have h1 : ((mkIsolatedIssue m).id == "isolated-" ++ nid) = false :=
          (isolated_id_beq m.id nid).trans hb'
        simp only [List.filter_cons, h1, hb', Bool.false_and]
        simp only [Bool.false_eq_true, if_false]
        exact ih
    · have hp' : isolatedPred edges m = false := Bool.eq_false_iff.mpr hp
      rw [if_neg hp]
      simp only [List.filter_cons, hp', Bool.and_false]
      simp only [Bool.false_eq_true, if_false]
      exact ih

theorem filter_id_count (p : RFNode → Bool) :
    ∀ ns : List RFNode, (ns.map (fun m => m.id)).Nodup → ∀ n ∈ ns,
      (ns.filter (fun m => m.id == n.id && p m)).length = if p n then 1 else 0 := by
  intro ns
  induction ns with
  | nil => intro _ n hn; simp at hn
  | cons m ns ih =>
    intro hnodup n hn
    rw [List.map_cons, List.nodup_cons] at hnodup
    obtain ⟨hmid, hnodup'⟩ := hnodup
    rw [List.filter_cons]
    rcases List.mem_cons.mp hn with rfl | hn
    · -- here the head node is `n` itself
      have htail : (ns.filter (fun m' => m'.id == n.id && p m')).length = 0 := by
        rw [List.length_eq_zero, List.filter_eq_nil_iff]
        intro m' hm'
        have hne : m'.id ≠ n.id := fun he => hmid (he ▸ List.mem_map_of_mem _ hm')
        simp [hne]
      by_cases hp : p n
      · simp only [beq_self_eq_true, Bool.true_and, hp, if_true, List.length_cons]
        rw [htail]
      · have hp' : p n = false := Bool.eq_false_iff.mpr hp
        simp only [beq_self_eq_true, Bool.true_and, hp']
        simp only [Bool.false_eq_true, if_false]
        exact htail
    · have hne : m.id ≠ n.id := fun he => hmid (he ▸ List.mem_map_of_mem _ hn)
      rw [if_neg (by simp [hne])]
      exact ih hnodup' n hn

theorem not_isolated_id_of_other_rule (p a nid : String) (hp2 : 2 ≤ p.data.length)
    (hne : p.data.take 2 ≠ ['i', 's']) :
    ((p ++ a : String) == "isolated-" ++ nid) = false := by
  apply beq_eq_false_iff_ne.mpr
  apply str_ne_of_take2
  rw [str_take2_append p a hp2, str_take2_append "isolated-" nid (by decide)]
  rw [show ("isolated-" : String).data.take 2 = ['i', 's'] from by decide]
  exact hne

theorem no_trigger_not_isolated_id (nid : String) :
    (("no-trigger" : String) == "isolated-" ++ nid) = false := by
  apply beq_eq_false_iff_ne.mpr
  apply str_ne_of_take2
  rw [str_take2_append "isolated-" nid (by decide)]
  decide

/-- Filtering `validate`'s output by an isolation-issue id only ever selects
issues from the isolation rule: the other four rules use the prefixes
`no-trigger`, `condition-no-output-`, `cycle-` and `disabled-critical-`. -/
theorem validate_filter_isolated (nodes : List RFNode) (edges : List RFEdge) (nid : String) :
    (validate nodes edges).filter (fun i => i.id == "isolated-" ++ nid) =
      (isolationIssues nodes edges).filter (fun i => i.id == "isolated-" ++ nid) := by
  unfold validate
  rw [List.filter_append, List.filter_append, List.filter_append, List.filter_append]
  have h1 : (noTriggerIssues nodes).filter (fun i => i.id == "isolated-" ++ nid) = [] := by
    rw [List.filter_eq_nil_iff]
    intro i hi
    unfold noTriggerIssues at hi
    split at hi
    · rw [List.mem_singleton] at hi
      subst hi
      simp [no_trigger_not_isolated_id nid]
    · simp at hi
  have h3 : (conditionIssues nodes edges).filter (fun i => i.id == "isolated-" ++ nid) = [] := by
    rw [List.filter_eq_nil_iff]
    intro i hi
    simp only [conditionIssues, List.mem_filterMap] at hi
    obtain ⟨m, _, hm⟩ := hi
    split at hm
    · cases hm
      simp [not_isolated_id_of_other_rule "condition-no-output-" m.id nid (by decide) (by decide)]
    · cases hm
  have h4 : (cycleIssues nodes edges).filter (fun i => i.id == "isolated-" ++ nid) = [] := by
    rw [List.filter_eq_nil_iff]
    intro i hi
    unfold cycleIssues at hi
    cases hf : findCycleNode nodes edges with
    | none => rw [hf] at hi; simp at hi
    | some cnid =>
      rw [hf, List.mem_singleton] at hi
      subst hi
      simp [not_isolated_id_of_other_rule "cycle-" cnid nid (by decide) (by decide)]
  have h5 : (disabledCriticalIssues nodes).filter (fun i => i.id == "isolated-" ++ nid) = [] := by
    rw [List.filter_eq_nil_iff]
    intro i hi
    simp only [disabledCriticalIssues, List.mem_map] at hi
    obtain ⟨m, _, hm⟩ := hi
    subst hm
    simp [not_isolated_id_of_other_rule "disabled-critical-" m.id nid (by decide) (by decide)]
  rw [h1, h3, h4, h5]
  simp

/-- C6: with the data-model invariant that node ids are unique, `validate`
emits exactly one isolation warning for a node iff the node is not a
trigger and appears in no edge (and none otherwise), and every issue
carrying an isolation id for node `n` is a warning attached to `n`. -/
theorem c6_isolation_warnings (nodes : List RFNode) (edges : List RFEdge)
    (hnodup : (nodes.map (fun n => n.id)).Nodup) :
    (∀ n ∈ nodes,
      ((validate nodes edges).filter (fun i => i.id == "isolated-" ++ n.id)).length =
        if isolatedPred edges n then 1 else 0) ∧
    (∀ i ∈ validate nodes edges, ∀ n ∈ nodes, i.id = "isolated-" ++ n.id →
      i.type = "warning" ∧ i.nodeId = some n.id) := by
  constructor
  · intro n hn
    rw [validate_filter_isolated, isolation_filter_eq, List.length_map]
    exact filter_id_count (isolatedPred edges) nodes hnodup n hn
  · intro i hi n hn hid
    have hmem : i ∈ (validate nodes edges).filter
        (fun i => i.id == "isolated-" ++ n.id) :=
      List.mem_filter.mpr ⟨hi, beq_iff_eq.mpr hid⟩
    rw [validate_filter_isolated, isolation_filter_eq] at hmem
    rw [List.mem_map] at hmem
    obtain ⟨m, hmf, hmk⟩ := hmem
    have hmid : m.id = n.id := by
      have := (List.mem_filter.mp hmf).2
      rw [Bool.and_eq_true, beq_iff_eq] at this
      exact this.1
    subst hmk
    exact ⟨rfl, by simp [mkIsolatedIssue, hmid]⟩

/-- Witness for `c6_isolation_warnings`: in a graph with a trigger and an
unconnected action node, exactly one isolation warning is emitted, for the
action node. -/
theorem c6_isolation_warnings_witness :
    (([({ id := "t", type := some "trigger", position := (0, 0),
          data := { label := "T", status := "idle", enabled := none,
                    lastExecuted := none, executionTime := none, config := [] } } : RFNode),
       ({ id := "a", type := some "action", position := (0, 0),
          data := { label := "A", status := "idle", enabled := none,
                    lastExecuted := none, executionTime := none, config := [] } } : RFNode)].map
        (fun n => n.id)).Nodup) ∧
    ((validate
        [({ id := "t", type := some "trigger", position := (0, 0),
            data := { label := "T", status := "idle", enabled := none,
                      lastExecuted := none, executionTime := none, config := [] } } : RFNode),
         ({ id := "a", type := some "action", position := (0, 0),
            data := { label := "A", status := "idle", enabled := none,
                      lastExecuted := none, executionTime := none, config := [] } } : RFNode)]
        []).filter
      (fun i => i.id == "isolated-" ++ "a")).length = 1 := by
  refine ⟨by decide, ?_⟩
  have h := (c6_isolation_warnings
    [({ id := "t", type := some "trigger", position := (0, 0),
        data := { label := "T", status := "idle", enabled := none,
                  lastExecuted := none, executionTime := none, config := [] } } : RFNode),
     ({ id := "a", type := some "action", position := (0, 0),
        data := { label := "A", status := "idle", enabled := none,
                  lastExecuted := none, executionTime := none, config := [] } } : RFNode)]
    [] (by decide)).1
    ({ id := "a", type := some "action", position := (0, 0),
       data := { label := "A", status := "idle", enabled := none,
                 lastExecuted := none, executionTime := none, config := [] } } : RFNode)
    (by decide)
  rw [show isolatedPred []
      ({ id := "a", type := some "action", position := (0, 0),
         data := { label := "A", status := "idle", enabled := none,
                   lastExecuted := none, executionTime := none, config := [] } } : RFNode)
      = true from by decide] at h
  simpa using h

/-! ## History manager lemmas (claims C3, C4, C5) -/

theorem takeLast_of_le {l : List α} {n : Nat} (h : l.length ≤ n) : takeLast n l = l := by
  unfold takeLast
  rw [Nat.sub_eq_zero_of_le h, List.drop_zero]

theorem takeLast_length (n : Nat) (l : List α) :
    (takeLast n l).length = l.length - (l.length - n) := by
  unfold takeLast
  rw [List.length_drop]

/-- Pushing snapshots while the stack has room: the history is the plain
concatenation, the index tracks the last entry, and the current graph is
the last pushed snapshot. -/
theorem pushAll_spec : ∀ (gs : List Snapshot) (st : HistoryState),
    st.historyIndex = (st.history.length : Int) - 1 →
    st.history.length + gs.length ≤ 50 →
    pushAll gs st = { history := st.history ++ gs,
                      historyIndex := (st.history.length : Int) + gs.length - 1,
                      current := gs.getLastD st.current } := by
  intro gs
  induction gs with
  | nil =>
    intro st hidx _
    obtain ⟨h, i, c⟩ := st
    simp only [pushAll, List.foldl_nil, List.getLastD]
    simp only at hidx
    rw [HistoryState.mk.injEq]
    refine ⟨(List.append_nil h).symm, ?_, rfl⟩
    simpa using hidx
  | cons g gs ih =>
    intro st hidx hlen
    have hpush : pushHistory g st =
        { history := st.history ++ [g],
          historyIndex := (st.history.length : Int), current := g } := by
      unfold pushHistory
      rw [HistoryState.mk.injEq]
      refine ⟨?_, by rw [hidx]; ring, rfl⟩
      have ht : (st.historyIndex + 1).toNat = st.history.length := by
        rw [hidx]; omega
      rw [ht, List.take_length]
      refine takeLast_of_le ?_
      simp only [List.length_append, List.length_singleton, List.length_cons, List.length_nil] at hlen ⊢
      omega
    have hstep := ih (pushHistory g st) (by rw [hpush]; simp) (by
      rw [hpush]
      simp only [List.length_append, List.length_singleton, List.length_cons, List.length_nil] at hlen ⊢
      omega)
    simp only [pushAll, List.foldl_cons] at hstep ⊢
    rw [hstep, hpush]
    rw [HistoryState.mk.injEq]
    refine ⟨by rw [List.append_assoc]; rfl, ?_, by rw [List.getLastD_cons]⟩
    simp only [List.length_append, List.length_singleton, List.length_cons, List.length_nil]
    push_cast
    ring

theorem undoHistory_at_zero (h : List Snapshot) (c : Snapshot) :
    undoHistory { history := h, historyIndex := 0, current := c } =
      some { history := h, historyIndex := 0, current := c } := by
  unfold undoHistory
  dsimp only
  rw [if_neg (by omega)]

theorem undoTimes_at_zero (k : Nat) (h : List Snapshot) (c : Snapshot) :
    undoTimes k { history := h, historyIndex := 0, current := c } =
      some { history := h, historyIndex := 0, current := c } := by
  induction k with
  | zero => rfl
  | succ k ih =>
    simp only [undoTimes, undoHistory_at_zero, Option.some_bind]
    exact ih

theorem undoTimes_run : ∀ (k j : Nat) (h : List Snapshot) (c : Snapshot),
    j < h.length → k ≤ j → 1 ≤ k →
    ∃ cur, h.get? (j - k) = some cur ∧
      undoTimes k { history := h, historyIndex := (j : Int), current := c } =
        some { history := h, historyIndex := ((j - k : Nat) : Int), current := cur } := by
  intro k
  induction k with
  | zero => intro j h c _ _ hk; omega
  | succ k ih =>
    intro j h c hj hkj _
    have hj1 : 1 ≤ j := by omega
    have hstep : undoHistory { history := h, historyIndex := (j : Int), current := c } =
        some { history := h, historyIndex := ((j - 1 : Nat) : Int),
               current := h.get ⟨j - 1, by omega⟩ } := by
      unfold undoHistory
      dsimp only
      rw [if_pos (by omega)]
      have ht : ((j : Int) - 1).toNat = j - 1 := by omega
      rw [ht, List.get?_eq_get (by omega)]
      rw [Option.some.injEq, HistoryState.mk.injEq]
      exact ⟨rfl, by omega, rfl⟩
    by_cases hk0 : k = 0
    · subst hk0
      refine ⟨h.get ⟨j - 1, by omega⟩, List.get?_eq_get (by omega), ?_⟩
      simp only [undoTimes, hstep, Option.some_bind]
    · obtain ⟨cur, hget, hrun⟩ := ih (j - 1) h (h.get ⟨j - 1, by omega⟩)
        (by omega) (by omega) (by omega)
      refine ⟨cur, ?_, ?_⟩
      · rw [← hget]; congr 1; omega
      · simp only [undoTimes, hstep, Option.some_bind]
        rw [hrun]
        rw [Option.some.injEq, HistoryState.mk.injEq]
        exact ⟨rfl, by omega, rfl⟩

theorem redoTimes_at_top (k : Nat) (h : List Snapshot) (c : Snapshot) (j : Int)
    (hj : j = (h.length : Int) - 1) :
    redoTimes k { history := h, historyIndex := j, current := c } =
      some { history := h, historyIndex := j, current := c } := by
  induction k with
  | zero => rfl
  | succ k ih =>
    have hstop : redoHistory { history := h, historyIndex := j, current := c } =
        some { history := h, historyIndex := j, current := c } := by
      unfold redoHistory
      dsimp only
      rw [if_neg (by omega)]
    simp only [redoTimes, hstop, Option.some_bind]
    exact ih

theorem redoTimes_run : ∀ (k j : Nat) (h : List Snapshot) (c : Snapshot),
    j + k < h.length → 1 ≤ k →
    ∃ cur, h.get? (j + k) = some cur ∧
      redoTimes k { history := h, historyIndex := (j : Int), current := c } =
        some { history := h, historyIndex := ((j + k : Nat) : Int), current := cur } := by
  intro k
  induction k with
  | zero => intro j h c _ hk; omega
  | succ k ih =>
    intro j h c hjk _
    have hstep : redoHistory { history := h, historyIndex := (j : Int), current := c } =
        some { history := h, historyIndex := ((j + 1 : Nat) : Int),
               current := h.get ⟨j + 1, by omega⟩ } := by
      unfold redoHistory
      dsimp only
      rw [if_pos (by omega), if_neg (by omega)]
      have ht : ((j : Int) + 1).toNat = j + 1 := by omega
      rw [ht, List.get?_eq_get (by omega)]
      rw [Option.some.injEq, HistoryState.mk.injEq]
      exact ⟨rfl, by omega, rfl⟩
    by_cases hk0 : k = 0
    · subst hk0
      refine ⟨h.get ⟨j + 1, by omega⟩, List.get?_eq_get (by omega), ?_⟩
      simp only [redoTimes, hstep, Option.some_bind]
    · obtain ⟨cur, hget, hrun⟩ := ih (j + 1) h (h.get ⟨j + 1, by omega⟩)
        (by omega) (by omega)
      refine ⟨cur, ?_, ?_⟩
      · rw [← hget]; congr 1; omega
      · simp only [redoTimes, hstep, Option.some_bind]
        rw [hrun]
        rw [Option.some.injEq, HistoryState.mk.injEq]
        exact ⟨rfl, by omega, rfl⟩

theorem undoTimes_add (a b : Nat) : ∀ st : HistoryState,
    undoTimes (a + b) st = (undoTimes a st).bind (undoTimes b) := by
  induction a with
  | zero => intro st; simp [undoTimes]
  | succ a ih =>
    intro st
    have hre : a + 1 + b = (a + b) + 1 := by omega
    rw [hre]
    simp only [undoTimes]
    cases undoHistory st with
    | none => simp
    | some st' => simp only [Option.some_bind]; exact ih st'

theorem redoTimes_add (a b : Nat) : ∀ st : HistoryState,
    redoTimes (a + b) st = (redoTimes a st).bind (redoTimes b) := by
  induction a with
  | zero => intro st; simp [redoTimes]
  | succ a ih =>
    intro st
    have hre : a + 1 + b = (a + b) + 1 := by omega
    rw [hre]
    simp only [redoTimes]
    cases redoHistory st with
    | none => simp
    | some st' => simp only [Option.some_bind]; exact ih st'

/-- C3 as stated is false: after one mutation (pushing the post-mutation
snapshot), one `undo` is a no-op at `historyIndex = 0` and leaves the
post-mutation snapshot current — the initial snapshot was never pushed and
cannot be restored. -/
theorem c3_counterexample :
    (undoTimes 1 (pushAll
        [({ nodes := [], edges := [{ id := "e1", source := "a", target := "b" }] } : Snapshot)]
        (initHistory ({ nodes := [], edges := [] } : Snapshot)))).map (fun st => st.current)
      = some ({ nodes := [], edges := [{ id := "e1", source := "a", target := "b" }] } : Snapshot) ∧
    ({ nodes := [], edges := [{ id := "e1", source := "a", target := "b" }] } : Snapshot) ≠
      ({ nodes := [], edges := [] } : Snapshot) := by
  decide

/-- C3 amended: for 1 ≤ N ≤ 50 pushed post-mutation snapshots, undo applied
N times lands on the first pushed snapshot (the state after the first
mutation; the pre-mutation initial snapshot is unreachable), and redo
applied N times then restores the final snapshot. -/
theorem c3_history_roundtrip (N : Nat) (hN1 : 1 ≤ N) (hN50 : N ≤ 50)
    (g0 : Snapshot) (gs : List Snapshot) (hlen : gs.length = N) :
    ∃ stu str,
      undoTimes N (pushAll gs (initHistory g0)) = some stu ∧
      stu.current = gs.headD g0 ∧
      redoTimes N stu = some str ∧
      str.current = gs.getLastD g0 := by
  have hpush := pushAll_spec gs (initHistory g0) (by simp [initHistory])
    (by simp only [initHistory, List.length_nil]; omega)
  have hst : pushAll gs (initHistory g0) =
      { history := gs, historyIndex := (N : Int) - 1, current := gs.getLastD g0 } := by
    rw [hpush]
    simp [initHistory, hlen]
  rw [hst]
  by_cases hN : N = 1
  · subst hN
    obtain ⟨g, rfl⟩ := List.length_eq_one.mp hlen
    have h0 : ((1 : Nat) : Int) - 1 = 0 := by norm_num
    rw [h0]
    refine ⟨_, _, undoTimes_at_zero 1 [g] _, ?_, redoTimes_at_top 1 [g] _ 0 (by simp), ?_⟩
    · simp
    · simp
  · obtain ⟨M, rfl⟩ : ∃ M, N = M + 1 := ⟨N - 1, by omega⟩
    have hM1 : 1 ≤ M := by omega
    rw [show ((M + 1 : Nat) : Int) - 1 = ((M : Nat) : Int) by push_cast; ring]
    obtain ⟨cur0, hget0, hrun0⟩ :=
      undoTimes_run M M gs (gs.getLastD g0) (by omega) (by omega) (by omega)
    simp only [Nat.sub_self, Nat.cast_zero] at hget0 hrun0
    obtain ⟨cur1, hget1, hrun1⟩ :=
      redoTimes_run M 0 gs cur0 (by omega) (by omega)
    simp only [Nat.zero_add, Nat.cast_zero] at hget1 hrun1
    refine ⟨{ history := gs, historyIndex := 0, current := cur0 },
            { history := gs, historyIndex := ((M : Nat) : Int), current := cur1 },
            ?_, ?_, ?_, ?_⟩
    · rw [undoTimes_add M 1, hrun0, Option.some_bind]
      exact undoTimes_at_zero 1 gs cur0
    · rw [List.headD_eq_head?_getD, ← List.get?_zero, hget0]
      rfl
    · rw [redoTimes_add M 1, hrun1, Option.some_bind]
      refine redoTimes_at_top 1 gs cur1 _ ?_
      rw [hlen]; push_cast; ring
    · rw [List.getLastD_eq_getLast?, List.getLast?_eq_get?, hlen]
      rw [show M + 1 - 1 = M from by omega, hget1]
      rfl

/-- Witness for `c3_history_roundtrip` at N = 2 with two concrete snapshots. -/
theorem c3_history_roundtrip_witness :
    ((1 : Nat) ≤ 2 ∧ (2 : Nat) ≤ 50 ∧
      ([({ nodes := [], edges := [{ id := "e1", source := "a", target := "b" }] } : Snapshot),
        ({ nodes := [], edges := [{ id := "e2", source := "b", target := "c" }] } : Snapshot)]
        : List Snapshot).length = 2) ∧
    ∃ stu str,
      undoTimes 2 (pushAll
        [({ nodes := [], edges := [{ id := "e1", source := "a", target := "b" }] } : Snapshot),
         ({ nodes := [], edges := [{ id := "e2", source := "b", target := "c" }] } : Snapshot)]
        (initHistory ({ nodes := [], edges := [] } : Snapshot))) = some stu ∧
      stu.current =
        [({ nodes := [], edges := [{ id := "e1", source := "a", target := "b" }] } : Snapshot),
         ({ nodes := [], edges := [{ id := "e2", source := "b", target := "c" }] } : Snapshot)].headD
          ({ nodes := [], edges := [] } : Snapshot) ∧
      redoTimes 2 stu = some str ∧
      str.current =
        [({ nodes := [], edges := [{ id := "e1", source := "a", target := "b" }] } : Snapshot),
         ({ nodes := [], edges := [{ id := "e2", source := "b", target := "c" }] } : Snapshot)].getLastD
          ({ nodes := [], edges := [] } : Snapshot) := by
  refine ⟨⟨by decide, by decide, by decide⟩, ?_⟩
  exact c3_history_roundtrip 2 (by decide) (by decide)
    ({ nodes := [], edges := [] } : Snapshot)
    [({ nodes := [], edges := [{ id := "e1", source := "a", target := "b" }] } : Snapshot),
     ({ nodes := [], edges := [{ id := "e2", source := "b", target := "c" }] } : Snapshot)]
    (by decide)

set_option maxRecDepth 80000 in
/-- C4 is broken in the code: after 60 pushes the stack was truncated to 50
entries but `historyIndex` kept growing to 59, so the very first `undo`
dereferences the missing entry `history[58]` — in JS `previousState` is
`undefined` and the handler throws; no snapshot at all is retrievable. -/
theorem c4_capacity_undo_crash :
    (pushAll ((List.range 60).map (fun k =>
        ({ nodes := [], edges := [{ id := toString k, source := "", target := "" }] } : Snapshot)))
      (initHistory ({ nodes := [], edges := [] } : Snapshot))).history.length = 50 ∧
    (pushAll ((List.range 60).map (fun k =>
        ({ nodes := [], edges := [{ id := toString k, source := "", target := "" }] } : Snapshot)))
      (initHistory ({ nodes := [], edges := [] } : Snapshot))).historyIndex = 59 ∧
    undoHistory (pushAll ((List.range 60).map (fun k =>
        ({ nodes := [], edges := [{ id := toString k, source := "", target := "" }] } : Snapshot)))
      (initHistory ({ nodes := [], edges := [] } : Snapshot))) = none := by
  decide

/-- C5: `saveToHistory` first discards every entry after the current index
(`slice(0, historyIndex + 1)` — so no redo branch survives), then appends
the new snapshot, then truncates to the last 50 entries; afterwards redo is
impossible and the stack never exceeds 50 entries. -/
theorem c5_push_discards_redo (st : HistoryState) (g : Snapshot)
    (h0 : 0 ≤ st.historyIndex) (hlt : st.historyIndex < (st.history.length : Int))
    (hle : st.history.length ≤ 50) :
    (pushHistory g st).history =
      takeLast 50 (st.history.take (st.historyIndex.toNat + 1) ++ [g]) ∧
    (st.historyIndex.toNat + 2 ≤ 50 →
      (pushHistory g st).history = st.history.take (st.historyIndex.toNat + 1) ++ [g]) ∧
    (pushHistory g st).historyIndex = st.historyIndex + 1 ∧
    (pushHistory g st).history.length ≤ 50 ∧
    canRedo (pushHistory g st) = false := by
  have htoNat : (st.historyIndex + 1).toNat = st.historyIndex.toNat + 1 := by omega
  have htake : (st.history.take (st.historyIndex.toNat + 1)).length =
      st.historyIndex.toNat + 1 := by
    rw [List.length_take]
    omega
  have hlen2 : (st.history.take (st.historyIndex.toNat + 1) ++ [g]).length =
      st.historyIndex.toNat + 2 := by
    rw [List.length_append, htake]
    rfl
  have hhist : (pushHistory g st).history =
      takeLast 50 (st.history.take (st.historyIndex.toNat + 1) ++ [g]) := by
    unfold pushHistory
    rw [htoNat]
  have hlen' : (pushHistory g st).history.length =
      (st.historyIndex.toNat + 2) - ((st.historyIndex.toNat + 2) - 50) := by
    rw [hhist, takeLast_length, hlen2]
  refine ⟨hhist, ?_, rfl, by omega, ?_⟩
  · intro hsmall
    rw [hhist]
    exact takeLast_of_le (by omega)
  · simp only [canRedo, decide_eq_false_iff_not, not_lt]
    have : (pushHistory g st).historyIndex = st.historyIndex + 1 := rfl
    rw [this]
    omega

/-- Witness for `c5_push_discards_redo`: pushing onto a two-entry history
whose index was moved back to 0 by an undo keeps only the first entry,
appends the new snapshot, and leaves nothing to redo. -/
theorem c5_push_discards_redo_witness :
    ((0 : Int) ≤ 0 ∧ (0 : Int) <
      (([({ nodes := [], edges := [{ id := "e1", source := "a", target := "b" }] } : Snapshot),
         ({ nodes := [], edges := [{ id := "e2", source := "b", target := "c" }] } : Snapshot)]
         : List Snapshot).length : Int) ∧
      ([({ nodes := [], edges := [{ id := "e1", source := "a", target := "b" }] } : Snapshot),
        ({ nodes := [], edges := [{ id := "e2", source := "b", target := "c" }] } : Snapshot)]
        : List Snapshot).length ≤ 50) ∧
    canRedo (pushHistory ({ nodes := [], edges := [] } : Snapshot)
      { history :=
          [({ nodes := [], edges := [{ id := "e1", source := "a", target := "b" }] } : Snapshot),
           ({ nodes := [], edges := [{ id := "e2", source := "b", target := "c" }] } : Snapshot)],
        historyIndex := 0,
        current :=
          ({ nodes := [], edges := [{ id := "e1", source := "a", target := "b" }] } : Snapshot) })
      = false := by
  refine ⟨⟨by decide, by decide, by decide⟩, ?_⟩
  exact (c5_push_discards_redo
    { history :=
        [({ nodes := [], edges := [{ id := "e1", source := "a", target := "b" }] } : Snapshot),
         ({ nodes := [], edges := [{ id := "e2", source := "b", target := "c" }] } : Snapshot)],
      historyIndex := 0,
      current :=
        ({ nodes := [], edges := [{ id := "e1", source := "a", target := "b" }] } : Snapshot) }
    ({ nodes := [], edges := [] } : Snapshot)
    (by decide) (by decide) (by decide)).2.2.2.2
